import Mathlib

/-!
Shallow embedding of `src/hotspot/share/nmt/nmtTreap.hpp` (class `Treap`).

The C++ class is generic over a key type `K`, a value type `V`, a
`COMPARATOR` (three-way `cmp`) and an `ALLOCATOR`.  We instantiate keys
and values with `Nat` and the comparator with the standard order on
`Nat` (`cmp a b < 0` iff `a < b`, `= 0` iff `a = b`, `> 0` iff `a > b`);
the allocator never fails by contract, so allocation does not appear in
the model.  Node priorities are `uint64_t`; the generator masks them to
48 bits, which we model with `% 2 ^ 48` on `Nat`.  The tracked
`_node_count` is a C++ `int`, modelled as `Int`.

Pointer-mutating code is embedded functionally: a `TreapNode*` is a
value of the inductive `TreapNode` (with `nil` for `nullptr`), and the
child-slot reassignments of `split`/`merge` become construction of the
corresponding node value.  The explicit-stack loops of the traversals
are embedded as the structural recursions they compute.
-/

namespace NMTTreap

/-- A treap node: `_priority`, `_key`, `_value`, `_left`, `_right`.
`nil` stands for `nullptr`. -/
inductive TreapNode where
  | nil : TreapNode
  | node (priority : Nat) (key : Nat) (value : Nat)
      (left : TreapNode) (right : TreapNode) : TreapNode
deriving DecidableEq, Repr

open TreapNode

/-- `prng_next`: `_prng_seed = (0x5DEECE66D * _prng_seed + 0xB) & ((1 << 48) - 1)`,
returning the new seed. -/
def prngNext (seed : Nat) : Nat :=
  (0x5DEECE66D * seed + 0xB) % (2 ^ 48)

/-- `SplitMode` from the source: `LT` or `LEQ` decides where keys equal to the
split key go. -/
inductive SplitMode where
  | LT : SplitMode
  | LEQ : SplitMode
deriving DecidableEq, Repr

/-- The guard of `split`'s first branch:
`(cmp(head->_key, key) <= 0 && mode == LEQ) || (cmp(head->_key, key) < 0 && mode == LT)`. -/
def splitGoesLeft (m : SplitMode) (key k : Nat) : Bool :=
  match m with
  | SplitMode.LEQ => key ≤ k
  | SplitMode.LT => key < k

/-- `Treap::split(head, key, mode)`: returns the `node_pair` `(left, right)`.
The C++ reassigns `head->_right = p.left` (resp. `head->_left = p.right`);
here that is the reconstructed node. -/
def split : TreapNode → Nat → SplitMode → TreapNode × TreapNode
  | nil, _, _ => (nil, nil)
  | node p key v l r, k, m =>
    if splitGoesLeft m key k then
      let q := split r k m
      (node p key v l q.1, q.2)
    else
      let q := split l k m
      (q.1, node p key v q.2 r)

/-- `Treap::merge(left, right)`: keeps the root of higher priority
(`left->_priority > right->_priority` keeps `left`), merging the loser into
the winner's inner child slot. -/
def merge : TreapNode → TreapNode → TreapNode
  | nil, r => r
  | node lp lk lv ll lr, nil => node lp lk lv ll lr
  | node lp lk lv ll lr, node rp rk rv rl rr =>
    if lp > rp then
      node lp lk lv ll (merge lr (node rp rk rv rl rr))
    else
      node rp rk rv (merge (node lp lk lv ll lr) rl) rr
termination_by l r => (sizeOf l, sizeOf r)

/-- `Treap::find(node, k)`: standard BST descent, returning the found node
(`nullptr` becomes `none`). -/
def find : TreapNode → Nat → Option TreapNode
  | nil, _ => none
  | node p key v l r, k =>
    if key = k then some (node p key v l r)
    else if key < k then find r k
    else find l k

/-- The in-place value overwrite `found->_value = v` performed by `upsert`
when the key already exists: rebuilds the tree with the value at key `k`
replaced, following the same descent as `find`.  Shape, keys and
priorities are untouched. -/
def updateValue : TreapNode → Nat → Nat → TreapNode
  | nil, _, _ => nil
  | node p key v l r, k, nv =>
    if key = k then node p key nv l r
    else if key < k then node p key v l (updateValue r k nv)
    else node p key v (updateValue l k nv) r

/-- The candidate-tracking loop of `Treap::closest_leq`, with the loop
state (`candidate`, `pos`) passed explicitly. -/
def closestLeqGo (cand : Option TreapNode) : TreapNode → Nat → Option TreapNode
  | nil, _ => cand
  | node p key v l r, k =>
    if key = k then some (node p key v l r)
    else if key < k then closestLeqGo (some (node p key v l r)) r k
    else closestLeqGo cand l k

/-- In-order key sequence: the keys visited by `Treap::visit_in_order`
(the explicit-stack loop computes exactly the left-root-right order). -/
def inorderKeys : TreapNode → List Nat
  | nil => []
  | node _ k _ l r => inorderKeys l ++ k :: inorderKeys r

/-- Keys visited by `Treap::visit_range_in_order(from, to, f)`.  The
stack loop descends left only while `cmp(key, from) >= 0`, emits when
`cmp(key, from) >= 0 && cmp(key, to) < 0`, and descends right only when
`cmp(key, to) < 0`; that pruned in-order walk is this recursion. -/
def rangeKeys : TreapNode → Nat → Nat → List Nat
  | nil, _, _ => []
  | node _ k _ l r, lo, hi =>
    (if lo ≤ k then rangeKeys l lo hi else []) ++
    (if lo ≤ k ∧ k < hi then [k] else []) ++
    (if k < hi then rangeKeys r lo hi else [])

/-- The treap object state: `_root`, `_prng_seed`, `_node_count`
(the allocator is stateless in the model). -/
structure Treap where
  root : TreapNode
  prngSeed : Nat
  nodeCount : Int
deriving DecidableEq, Repr

/-- The constructor `Treap(seed)`: null root, given seed, count `0`. -/
def Treap.new (seed : Nat) : Treap :=
  { root := nil, prngSeed := seed, nodeCount := 0 }

/-- `Treap::upsert(k, v)`: if `find` succeeds, overwrite the value in place;
otherwise increment the count, draw a fresh priority (which is the new
seed), split at `k` (LEQ) and merge the new node in between. -/
def Treap.upsert (s : Treap) (k v : Nat) : Treap :=
  match find s.root k with
  | some _ => { s with root := updateValue s.root k v }
  | none =>
    let prio := prngNext s.prngSeed
    let n := node prio k v nil nil
    let p := split s.root k SplitMode.LEQ
    { root := merge (merge p.1 n) p.2,
      prngSeed := prio,
      nodeCount := s.nodeCount + 1 }

/-- `Treap::remove(k)`: split LEQ at `k` into `(≤ k, > k)`, split the left
half LT at `k` into `(< k, = k)`; if the `= k` part is non-null the count
is decremented (and that node freed); the root becomes
`merge(second_split.left, first_split.right)`. -/
def Treap.remove (s : Treap) (k : Nat) : Treap :=
  let p1 := split s.root k SplitMode.LEQ
  let p2 := split p1.1 k SplitMode.LT
  { s with
    root := merge p2.1 p1.2,
    nodeCount := if p2.2 = nil then s.nodeCount else s.nodeCount - 1 }

/-- `Treap::remove_all()`: sets `_node_count = 0` and frees every node
reachable from `_root` — but never assigns `_root`, so the root pointer
still designates the old (now freed) tree.  In this heap-free model the
`root` field therefore keeps the stale tree. -/
def Treap.removeAll (s : Treap) : Treap :=
  { s with nodeCount := 0 }

/-- `Treap::closest_leq(key)` on the object's root. -/
def Treap.closestLeq (s : Treap) (k : Nat) : Option TreapNode :=
  closestLeqGo none s.root k

/-- Auxiliary: `p` holds for every key of the tree. -/
def keysAll (p : Nat → Bool) : TreapNode → Bool
  | nil => true
  | node _ k _ l r => p k && keysAll p l && keysAll p r

/-- The binary-search-tree invariant maintained by the container
(left subtree keys strictly below, right subtree keys strictly above;
keys are unique). -/
def bst : TreapNode → Bool
  | nil => true
  | node _ k _ l r =>
    keysAll (fun x => decide (x < k)) l && keysAll (fun x => decide (k < x)) r &&
    bst l && bst r

/-- The root's priority is at most `b` (vacuously true for `nil`). -/
def rootPrioLe (b : Nat) : TreapNode → Bool
  | nil => true
  | node p _ _ _ _ => p ≤ b

/-- The heap invariant as the spec states it: every parent's priority is
`≥` each child's priority (ties permitted). -/
def heapInv : TreapNode → Bool
  | nil => true
  | node p _ _ l r => rootPrioLe p l && rootPrioLe p r && heapInv l && heapInv r

/-- Every priority in the tree is strictly below `b`. -/
def priosAllLt (b : Nat) : TreapNode → Bool
  | nil => true
  | node p _ _ l r => decide (p < b) && priosAllLt b l && priosAllLt b r

/-- The strict heap invariant stated in the source's header comment:
a parent's priority is strictly larger than the priorities in its
subtrees (equivalently, all priorities are pairwise distinct along
ancestor chains). -/
def heapStrict : TreapNode → Bool
  | nil => true
  | node p _ _ l r => priosAllLt p l && priosAllLt p r && heapStrict l && heapStrict r

/-- The value stored at a node (`0` for `nil`, never used at `nil`). -/
def nodeVal : TreapNode → Nat
  | nil => 0
  | node _ _ v _ _ => v

/-- The priority stored at a node (`0` for `nil`, never used at `nil`). -/
def nodePrio : TreapNode → Nat
  | nil => 0
  | node p _ _ _ _ => p

/-- The key stored at a node (`0` for `nil`, never used at `nil`). -/
def nodeKey : TreapNode → Nat
  | nil => 0
  | node _ k _ _ _ => k

/-- The value `find` returns for key `k`, if any. -/
def findValue (t : TreapNode) (k : Nat) : Option Nat :=
  (find t k).map nodeVal

/-- The priority of the node `find` returns for key `k`, if any. -/
def findPrio (t : TreapNode) (k : Nat) : Option Nat :=
  (find t k).map nodePrio

/-- Public mutating and reading operations, as a reified operation type
(queries read the tree but do not write any field of the object). -/
inductive Op where
  | upsertOp (k v : Nat) : Op
  | removeOp (k : Nat) : Op
  | findOp (k : Nat) : Op
  | closestLeqOp (k : Nat) : Op
  | visitInOrderOp : Op
  | visitRangeOp (lo hi : Nat) : Op
deriving DecidableEq, Repr

/-- State effect of one operation.  `find` is `static`, `closest_leq` and
the traversals only read the tree, so their state effect is the identity. -/
def applyOp (s : Treap) : Op → Treap
  | Op.upsertOp k v => s.upsert k v
  | Op.removeOp k => s.remove k
  | Op.findOp _ => s
  | Op.closestLeqOp _ => s
  | Op.visitInOrderOp => s
  | Op.visitRangeOp _ _ => s

/-- Run a sequence of operations from a state. -/
def runFrom (s : Treap) (ops : List Op) : Treap :=
  ops.foldl applyOp s

/-- Run a sequence of operations from a freshly constructed container. -/
def runOps (seed : Nat) (ops : List Op) : Treap :=
  runFrom (Treap.new seed) ops

/-- Does this operation take `upsert`'s insertion path (key not present)? -/
def isNewInsert (s : Treap) : Op → Bool
  | Op.upsertOp k _ => (find s.root k).isNone
  | _ => false

/-- Number of new-key insertions performed while running `ops` from `s`. -/
def newInserts (s : Treap) : List Op → Nat
  | [] => 0
  | op :: rest =>
    (if isNewInsert s op then 1 else 0) + newInserts (applyOp s op) rest

/-- `n`-fold iteration of the priority generator. -/
def prngIterate (seed : Nat) : Nat → Nat
  | 0 => seed
  | n + 1 => prngIterate (prngNext seed) n

/-- Closure state of `verify_self`'s in-order key-ordering pass:
`seen_count`, `last_seen` (only its key is ever read) and `failed`. -/
structure OrderCheckState where
  seenCount : Nat
  lastSeen : Option Nat
  failed : Bool
deriving DecidableEq, Repr

/-- One step of the `verify_self` in-order lambda: increment `seen_count`;
on the first node just record it; afterwards, when
`cmp(last_seen->key(), node->key()) > 0` the code executes
`failed = false;` (sic — the source assigns `false`, not `true`). -/
def orderCheckStep (s : OrderCheckState) (k : Nat) : OrderCheckState :=
  match s.lastSeen with
  | none => { seenCount := s.seenCount + 1, lastSeen := some k, failed := s.failed }
  | some lk =>
    { seenCount := s.seenCount + 1, lastSeen := some k,
      failed := if lk > k then false else s.failed }

/-- The whole key-ordering pass of `verify_self`: fold the lambda over the
in-order key sequence starting from `last_seen = nullptr`, `failed = false`,
`seen_count = 0`. -/
def orderCheckRun (t : TreapNode) : OrderCheckState :=
  (inorderKeys t).foldl orderCheckStep
    { seenCount := 0, lastSeen := none, failed := false }

/-! ### Structural lemmas about `inorderKeys`, `split` and `merge` -/

theorem inorderKeys_eq_nil_iff (t : TreapNode) : inorderKeys t = [] ↔ t = nil := by
  cases t with
  | nil => simp [inorderKeys]
  | node p k v l r => simp [inorderKeys]

theorem keysAll_iff (p : Nat → Bool) (t : TreapNode) :
    keysAll p t = true ↔ ∀ x ∈ inorderKeys t, p x = true := by
  induction t with
  | nil => simp [keysAll, inorderKeys]
  | node pr k v l r ihl ihr =>
    simp [keysAll, inorderKeys, ihl, ihr]
    constructor
    · rintro ⟨⟨hk, hl⟩, hr⟩ x hx
      rcases hx with hx | hx | hx
      · exact hl x hx
      · exact hx ▸ hk
      · exact hr x hx
    · intro h
      exact ⟨⟨h k (Or.inr (Or.inl rfl)), fun x hx => h x (Or.inl hx)⟩,
        fun x hx => h x (Or.inr (Or.inr hx))⟩

theorem keysAll_mono (p q : Nat → Bool) (t : TreapNode)
    (hpq : ∀ x, p x = true → q x = true) (h : keysAll p t = true) :
    keysAll q t = true := by
  rw [keysAll_iff] at h ⊢
  exact fun x hx => hpq x (h x hx)

theorem inorder_split (t : TreapNode) (k : Nat) (m : SplitMode) :
    inorderKeys (split t k m).1 ++ inorderKeys (split t k m).2 = inorderKeys t := by
  induction t with
  | nil => simp [split, inorderKeys]
  | node p key v l r ihl ihr =>
    by_cases h : splitGoesLeft m key k = true
    · simp only [split, h, if_pos, inorderKeys]
      rw [List.append_assoc, List.cons_append] at *
      rw [ihr]
    · simp only [split, h, if_neg, inorderKeys, Bool.not_eq_true] at *
      rw [← ihl]
      simp [inorderKeys, List.append_assoc]

theorem inorder_merge (l r : TreapNode) :
    inorderKeys (merge l r) = inorderKeys l ++ inorderKeys r := by
  induction l, r using merge.induct with
  | case1 r => simp [merge, inorderKeys]
  | case2 lp lk lv ll lr => simp [merge, inorderKeys]
  | case3 lp lk lv ll lr rp rk rv rl rr h ih =>
    rw [merge]
    simp only [if_pos h, inorderKeys, ih]
    simp [inorderKeys, List.append_assoc]
  | case4 lp lk lv ll lr rp rk rv rl rr h ih =>
    rw [merge]
    simp only [if_neg h, inorderKeys, ih]
    simp [inorderKeys, List.append_assoc]

theorem mem_split_left (t : TreapNode) (k : Nat) (m : SplitMode) (x : Nat)
    (hx : x ∈ inorderKeys (split t k m).1) : x ∈ inorderKeys t := by
  rw [← inorder_split t k m]
  exact List.mem_append_left _ hx

theorem mem_split_right (t : TreapNode) (k : Nat) (m : SplitMode) (x : Nat)
    (hx : x ∈ inorderKeys (split t k m).2) : x ∈ inorderKeys t := by
  rw [← inorder_split t k m]
  exact List.mem_append_right _ hx

theorem keysAll_split (p : Nat → Bool) (t : TreapNode) (k : Nat) (m : SplitMode)
    (h : keysAll p t = true) :
    keysAll p (split t k m).1 = true ∧ keysAll p (split t k m).2 = true := by
  rw [keysAll_iff] at h
  constructor
  · rw [keysAll_iff]
    exact fun x hx => h x (mem_split_left t k m x hx)
  · rw [keysAll_iff]
    exact fun x hx => h x (mem_split_right t k m x hx)

theorem keysAll_merge (p : Nat → Bool) (l r : TreapNode) :
    keysAll p (merge l r) = true ↔ (keysAll p l = true ∧ keysAll p r = true) := by
  simp only [keysAll_iff, inorder_merge, List.mem_append]
  constructor
  · intro h
    exact ⟨fun x hx => h x (Or.inl hx), fun x hx => h x (Or.inr hx)⟩
  · rintro ⟨hl, hr⟩ x hx
    rcases hx with hx | hx
    · exact hl x hx
    · exact hr x hx

theorem merge_nil_right (u : TreapNode) : merge u nil = u := by
  cases u with
  | nil => rw [merge]
  | node p k v l r => rw [merge]

/-! ### Order and priority bounds through `split` and `merge` -/

theorem splitGoesLeft_of_lt (m : SplitMode) (key k x : Nat)
    (h : splitGoesLeft m key k = true) (hx : x < key) :
    splitGoesLeft m x k = true := by
  cases m <;> simp [splitGoesLeft] at * <;> omega

theorem splitGoesLeft_of_gt (m : SplitMode) (key k x : Nat)
    (h : ¬ splitGoesLeft m key k = true) (hx : key < x) :
    ¬ splitGoesLeft m x k = true := by
  cases m <;> simp [splitGoesLeft] at * <;> omega

theorem split_bounds (t : TreapNode) (k : Nat) (m : SplitMode) (hb : bst t = true) :
    keysAll (fun x => splitGoesLeft m x k) (split t k m).1 = true ∧
    keysAll (fun x => !splitGoesLeft m x k) (split t k m).2 = true := by
  induction t with
  | nil => simp [split, keysAll]
  | node p key v l r ihl ihr =>
    simp only [bst, Bool.and_eq_true] at hb
    obtain ⟨⟨⟨hkl, hkr⟩, hbl⟩, hbr⟩ := hb
    by_cases h : splitGoesLeft m key k = true
    · simp only [split, if_pos h]
      refine ⟨?_, (ihr hbr).2⟩
      simp only [keysAll, Bool.and_eq_true]
      refine ⟨⟨h, ?_⟩, (ihr hbr).1⟩
      exact keysAll_mono _ _ l
        (fun x hx => splitGoesLeft_of_lt m key k x h (by simpa using hx)) hkl
    · simp only [split, if_neg h]
      refine ⟨(ihl hbl).1, ?_⟩
      simp only [keysAll, Bool.and_eq_true]
      refine ⟨⟨by simpa using h, (ihl hbl).2⟩, ?_⟩
      exact keysAll_mono _ _ r
        (fun x hx => by
          simpa using splitGoesLeft_of_gt m key k x h (by simpa using hx)) hkr

theorem split_bst (t : TreapNode) (k : Nat) (m : SplitMode) (hb : bst t = true) :
    bst (split t k m).1 = true ∧ bst (split t k m).2 = true := by
  induction t with
  | nil => simp [split, bst]
  | node p key v l r ihl ihr =>
    simp only [bst, Bool.and_eq_true] at hb
    obtain ⟨⟨⟨hkl, hkr⟩, hbl⟩, hbr⟩ := hb
    by_cases h : splitGoesLeft m key k = true
    · simp only [split, if_pos h]
      refine ⟨?_, (ihr hbr).2⟩
      simp only [bst, Bool.and_eq_true]
      exact ⟨⟨⟨hkl, (keysAll_split _ r k m hkr).1⟩, hbl⟩, (ihr hbr).1⟩
    · simp only [split, if_neg h]
      refine ⟨(ihl hbl).1, ?_⟩
      simp only [bst, Bool.and_eq_true]
      exact ⟨⟨⟨(keysAll_split _ l k m hkl).2, hkr⟩, (ihl hbl).2⟩, hbr⟩

theorem merge_bst (l r : TreapNode) (hl : bst l = true) (hr : bst r = true)
    (sep : ∀ x ∈ inorderKeys l, ∀ y ∈ inorderKeys r, x < y) :
    bst (merge l r) = true := by
  induction l, r using merge.induct with
  | case1 r => simpa [merge] using hr
  | case2 lp lk lv ll lr => simpa [merge] using hl
  | case3 lp lk lv ll lr rp rk rv rl rr h ih =>
    rw [merge, if_pos h]
    simp only [bst, Bool.and_eq_true] at hl ⊢
    obtain ⟨⟨⟨hkl, hkr⟩, hbl⟩, hbr⟩ := hl
    have hlk_mem : lk ∈ inorderKeys (node lp lk lv ll lr) := by
      simp [inorderKeys]
    refine ⟨⟨⟨hkl, ?_⟩, hbl⟩, ?_⟩
    · rw [keysAll_merge]
      refine ⟨hkr, ?_⟩
      rw [keysAll_iff]
      intro y hy
      simpa using sep lk hlk_mem y hy
    · refine ih hbr hr ?_
      intro x hx y hy
      refine sep x ?_ y hy
      simp [inorderKeys, hx]
  | case4 lp lk lv ll lr rp rk rv rl rr h ih =>
    rw [merge, if_neg h]
    simp only [bst, Bool.and_eq_true] at hr ⊢
    obtain ⟨⟨⟨hkl, hkr⟩, hbl⟩, hbr⟩ := hr
    have hrk_mem : rk ∈ inorderKeys (node rp rk rv rl rr) := by
      simp [inorderKeys]
    refine ⟨⟨⟨?_, hkr⟩, ?_⟩, hbr⟩
    · rw [keysAll_merge]
      refine ⟨?_, hkl⟩
      rw [keysAll_iff]
      intro x hx
      simpa using sep x hx rk hrk_mem
    · refine ih hl hbl ?_
      intro x hx y hy
      refine sep x hx y ?_
      simp [inorderKeys, hy]

theorem rootPrioLe_mono (a b : Nat) (t : TreapNode) (hab : a ≤ b)
    (h : rootPrioLe a t = true) : rootPrioLe b t = true := by
  cases t with
  | nil => simp [rootPrioLe]
  | node p k v l r => simp [rootPrioLe] at *; omega

theorem merge_heap (l r : TreapNode) (hl : heapInv l = true) (hr : heapInv r = true) :
    heapInv (merge l r) = true ∧
    ∀ b, rootPrioLe b l = true → rootPrioLe b r = true →
      rootPrioLe b (merge l r) = true := by
  induction l, r using merge.induct with
  | case1 r => exact ⟨by simp [merge, hr], fun b _ hb => by simpa [merge] using hb⟩
  | case2 lp lk lv ll lr =>
    exact ⟨by simp [merge, hl], fun b hb _ => by simpa [merge] using hb⟩
  | case3 lp lk lv ll lr rp rk rv rl rr h ih =>
    simp only [heapInv, Bool.and_eq_true] at hl hr
    obtain ⟨⟨⟨hpl, hpr⟩, hhl⟩, hhr⟩ := hl
    have ihm := ih hhr (by
      simp only [heapInv, Bool.and_eq_true]
      exact hr)
    rw [merge, if_pos h]
    constructor
    · simp only [heapInv, Bool.and_eq_true]
      refine ⟨⟨⟨hpl, ?_⟩, hhl⟩, ihm.1⟩
      exact ihm.2 lp hpr (by simp [rootPrioLe]; omega)
    · intro b hbl _
      simpa [rootPrioLe] using hbl
  | case4 lp lk lv ll lr rp rk rv rl rr h ih =>
    simp only [heapInv, Bool.and_eq_true] at hl hr
    obtain ⟨⟨⟨hpl, hpr⟩, hhl⟩, hhr⟩ := hr
    have ihm := ih (by
      simp only [heapInv, Bool.and_eq_true]
      exact hl) hhl
    rw [merge, if_neg h]
    constructor
    · simp only [heapInv, Bool.and_eq_true]
      refine ⟨⟨⟨?_, hpr⟩, ihm.1⟩, hhr⟩
      exact ihm.2 rp (by simp [rootPrioLe]; omega) hpl
    · intro b _ hbr
      simpa [rootPrioLe] using hbr

theorem split_heap (t : TreapNode) (k : Nat) (m : SplitMode) (hh : heapInv t = true) :
    heapInv (split t k m).1 = true ∧ heapInv (split t k m).2 = true ∧
    ∀ b, rootPrioLe b t = true →
      rootPrioLe b (split t k m).1 = true ∧ rootPrioLe b (split t k m).2 = true := by
  induction t with
  | nil => simp [split, heapInv, rootPrioLe]
  | node p key v l r ihl ihr =>
    simp only [heapInv, Bool.and_eq_true] at hh
    obtain ⟨⟨⟨hpl, hpr⟩, hhl⟩, hhr⟩ := hh
    by_cases h : splitGoesLeft m key k = true
    · simp only [split, if_pos h]
      obtain ⟨ih1, ih2, ih3⟩ := ihr hhr
      refine ⟨?_, ih2, ?_⟩
      · simp only [heapInv, Bool.and_eq_true]
        exact ⟨⟨⟨hpl, (ih3 p hpr).1⟩, hhl⟩, ih1⟩
      · intro b hb
        simp only [rootPrioLe] at hb
        constructor
        · simpa [rootPrioLe] using hb
        · exact rootPrioLe_mono p b _ (by simpa using hb) (ih3 p hpr).2
    · simp only [split, if_neg h]
      obtain ⟨ih1, ih2, ih3⟩ := ihl hhl
      refine ⟨ih1, ?_, ?_⟩
      · simp only [heapInv, Bool.and_eq_true]
        exact ⟨⟨⟨(ih3 p hpl).2, hpr⟩, ih2⟩, hhr⟩
      · intro b hb
        simp only [rootPrioLe] at hb
        constructor
        · exact rootPrioLe_mono p b _ (by simpa using hb) (ih3 p hpl).1
        · simpa [rootPrioLe] using hb

/-! ### Strict priorities: split and merge are exact inverses on trees -/

theorem priosAllLt_split (b : Nat) (t : TreapNode) (k : Nat) (m : SplitMode)
    (h : priosAllLt b t = true) :
    priosAllLt b (split t k m).1 = true ∧ priosAllLt b (split t k m).2 = true := by
  induction t with
  | nil => simp [split, priosAllLt]
  | node p key v l r ihl ihr =>
    simp only [priosAllLt, Bool.and_eq_true] at h
    obtain ⟨⟨hp, hl⟩, hr⟩ := h
    by_cases hc : splitGoesLeft m key k = true
    · simp only [split, if_pos hc]
      exact ⟨by
        simp only [priosAllLt, Bool.and_eq_true]
        exact ⟨⟨hp, hl⟩, (ihr hr).1⟩, (ihr hr).2⟩
    · simp only [split, if_neg hc]
      exact ⟨(ihl hl).1, by
        simp only [priosAllLt, Bool.and_eq_true]
        exact ⟨⟨hp, (ihl hl).2⟩, hr⟩⟩

theorem split_heapStrict (t : TreapNode) (k : Nat) (m : SplitMode)
    (hs : heapStrict t = true) :
    heapStrict (split t k m).1 = true ∧ heapStrict (split t k m).2 = true := by
  induction t with
  | nil => simp [split, heapStrict]
  | node p key v l r ihl ihr =>
    simp only [heapStrict, Bool.and_eq_true] at hs
    obtain ⟨⟨⟨hpl, hpr⟩, hsl⟩, hsr⟩ := hs
    by_cases hc : splitGoesLeft m key k = true
    · simp only [split, if_pos hc]
      refine ⟨?_, (ihr hsr).2⟩
      simp only [heapStrict, Bool.and_eq_true]
      exact ⟨⟨⟨hpl, (priosAllLt_split p r k m hpr).1⟩, hsl⟩, (ihr hsr).1⟩
    · simp only [split, if_neg hc]
      refine ⟨(ihl hsl).1, ?_⟩
      simp only [heapStrict, Bool.and_eq_true]
      exact ⟨⟨⟨(priosAllLt_split p l k m hpl).2, hpr⟩, (ihl hsl).2⟩, hsr⟩

theorem split_merge_id (t : TreapNode) (k : Nat) (m : SplitMode)
    (hb : bst t = true) (hs : heapStrict t = true) :
    merge (split t k m).1 (split t k m).2 = t := by
  induction t with
  | nil => simp [split, merge]
  | node p key v l r ihl ihr =>
    simp only [bst, Bool.and_eq_true] at hb
    obtain ⟨⟨⟨hkl, hkr⟩, hbl⟩, hbr⟩ := hb
    simp only [heapStrict, Bool.and_eq_true] at hs
    obtain ⟨⟨⟨hpl, hpr⟩, hsl⟩, hsr⟩ := hs
    by_cases hc : splitGoesLeft m key k = true
    · simp only [split, if_pos hc]
      have ih := ihr hbr hsr
      have hq2 : priosAllLt p (split r k m).2 = true := (priosAllLt_split p r k m hpr).2
      cases hq : (split r k m).2 with
      | nil =>
        rw [merge_nil_right]
        rw [hq] at ih
        rw [merge_nil_right] at ih
        rw [ih]
      | node qp qk qv ql qr =>
        rw [hq] at ih hq2
        simp only [priosAllLt, Bool.and_eq_true, decide_eq_true_eq] at hq2
        rw [merge, if_pos (by omega)]
        rw [ih]
    · simp only [split, if_neg hc]
      have ih := ihl hbl hsl
      have hq1 : priosAllLt p (split l k m).1 = true := (priosAllLt_split p l k m hpl).1
      cases hq : (split l k m).1 with
      | nil =>
        rw [merge]
        rw [hq] at ih
        rw [merge] at ih
        rw [ih]
      | node qp qk qv ql qr =>
        rw [hq] at ih hq1
        simp only [priosAllLt, Bool.and_eq_true, decide_eq_true_eq] at hq1
        rw [merge, if_neg (by omega)]
        rw [ih]

/-! ### Sortedness of the in-order key sequence -/

theorem pairwise_inorder (t : TreapNode) (hb : bst t = true) :
    (inorderKeys t).Pairwise (fun a b => a < b) := by
  induction t with
  | nil => simp [inorderKeys]
  | node p k v l r ihl ihr =>
    simp only [bst, Bool.and_eq_true] at hb
    obtain ⟨⟨⟨hkl, hkr⟩, hbl⟩, hbr⟩ := hb
    rw [keysAll_iff] at hkl hkr
    simp only [inorderKeys, List.pairwise_append, List.pairwise_cons]
    refine ⟨ihl hbl, ⟨?_, ihr hbr⟩, ?_⟩
    · intro y hy
      simpa using hkr y hy
    · intro x hx y hy
      have hxk : x < k := by simpa using hkl x hx
      rcases List.mem_cons.mp hy with hy | hy
      · omega
      · have hky : k < y := by simpa using hkr y hy
        omega

/-! ### `find` and `updateValue` -/

theorem find_eq_some (t : TreapNode) (k : Nat) (n : TreapNode)
    (h : find t k = some n) :
    (∃ p v l r, n = node p k v l r) ∧ k ∈ inorderKeys t := by
  induction t with
  | nil => simp [find] at h
  | node p key v l r ihl ihr =>
    by_cases hk : key = k
    · subst hk
      rw [find, if_pos rfl] at h
      cases h
      exact ⟨⟨p, v, l, r, rfl⟩, by simp [inorderKeys]⟩
    · by_cases hlt : key < k
      · rw [find, if_neg hk, if_pos hlt] at h
        obtain ⟨hn, hmem⟩ := ihr h
        exact ⟨hn, by simp [inorderKeys, hmem]⟩
      · rw [find, if_neg hk, if_neg hlt] at h
        obtain ⟨hn, hmem⟩ := ihl h
        exact ⟨hn, by simp [inorderKeys, hmem]⟩

theorem find_eq_none_of_not_mem (t : TreapNode) (k : Nat)
    (h : k ∉ inorderKeys t) : find t k = none := by
  cases hf : find t k with
  | none => rfl
  | some n => exact absurd (find_eq_some t k n hf).2 h

theorem find_isSome_of_mem (t : TreapNode) (k : Nat) (hb : bst t = true)
    (h : k ∈ inorderKeys t) : (find t k).isSome = true := by
  induction t with
  | nil => simp [inorderKeys] at h
  | node p key v l r ihl ihr =>
    simp only [bst, Bool.and_eq_true] at hb
    obtain ⟨⟨⟨hkl, hkr⟩, hbl⟩, hbr⟩ := hb
    rw [keysAll_iff] at hkl hkr
    simp only [inorderKeys, List.mem_append, List.mem_cons] at h
    by_cases hk : key = k
    · simp [find, hk]
    · rcases h with h | h | h
      · have : k < key := by simpa using hkl k h
        rw [find, if_neg hk, if_neg (by omega)]
        exact ihl hbl h
      · exact absurd h.symm hk
      · have : key < k := by simpa using hkr k h
        rw [find, if_neg hk, if_pos this]
        exact ihr hbr h

theorem not_mem_of_find_eq_none (t : TreapNode) (k : Nat) (hb : bst t = true)
    (h : find t k = none) : k ∉ inorderKeys t := by
  intro hmem
  have := find_isSome_of_mem t k hb hmem
  rw [h] at this
  simp at this

theorem inorderKeys_updateValue (t : TreapNode) (k v : Nat) :
    inorderKeys (updateValue t k v) = inorderKeys t := by
  induction t with
  | nil => simp [updateValue]
  | node p key val l r ihl ihr =>
    by_cases hk : key = k
    · simp [updateValue, hk, inorderKeys]
    · by_cases hlt : key < k
      · rw [updateValue, if_neg hk, if_pos hlt]
        simp [inorderKeys, ihr]
      · rw [updateValue, if_neg hk, if_neg hlt]
        simp [inorderKeys, ihl]

theorem keysAll_updateValue (p : Nat → Bool) (t : TreapNode) (k v : Nat) :
    keysAll p (updateValue t k v) = keysAll p t := by
  cases hb : keysAll p t with
  | true =>
    have h := (keysAll_iff p t).mp hb
    rw [← inorderKeys_updateValue t k v] at h
    exact (keysAll_iff p (updateValue t k v)).mpr h
  | false =>
    cases hb2 : keysAll p (updateValue t k v) with
    | false => rfl
    | true =>
      exfalso
      have h := (keysAll_iff p (updateValue t k v)).mp hb2
      rw [inorderKeys_updateValue] at h
      have h2 := (keysAll_iff p t).mpr h
      rw [hb] at h2
      exact Bool.false_ne_true h2

theorem bst_updateValue (t : TreapNode) (k v : Nat) :
    bst (updateValue t k v) = bst t := by
  induction t with
  | nil => simp [updateValue]
  | node p key val l r ihl ihr =>
    by_cases hk : key = k
    · simp [updateValue, hk, bst]
    · by_cases hlt : key < k
      · rw [updateValue, if_neg hk, if_pos hlt]
        simp [bst, keysAll_updateValue, ihr]
      · rw [updateValue, if_neg hk, if_neg hlt]
        simp [bst, keysAll_updateValue, ihl]

theorem find_updateValue_self (t : TreapNode) (k v : Nat) :
    find (updateValue t k v) k =
      (find t k).map (fun n => match n with
        | nil => nil
        | node p key _ l r => node p key v l r) := by
  induction t with
  | nil => simp [updateValue, find]
  | node p key val l r ihl ihr =>
    by_cases hk : key = k
    · rw [updateValue, if_pos hk, find, if_pos hk, find, if_pos hk]
      simp
    · by_cases hlt : key < k
      · rw [updateValue, if_neg hk, if_pos hlt, find, if_neg hk, if_pos hlt,
          find, if_neg hk, if_pos hlt]
        exact ihr
      · rw [updateValue, if_neg hk, if_neg hlt, find, if_neg hk, if_neg hlt,
          find, if_neg hk, if_neg hlt]
        exact ihl

theorem updateValue_updateValue (t : TreapNode) (k v1 v2 : Nat) :
    updateValue (updateValue t k v1) k v2 = updateValue t k v2 := by
  induction t with
  | nil => simp [updateValue]
  | node p key val l r ihl ihr =>
    by_cases hk : key = k
    · rw [updateValue, if_pos hk, updateValue, if_pos hk, updateValue, if_pos hk]
    · by_cases hlt : key < k
      · rw [updateValue, if_neg hk, if_pos hlt, updateValue, if_neg hk, if_pos hlt,
          updateValue, if_neg hk, if_pos hlt, ihr]
      · rw [updateValue, if_neg hk, if_neg hlt, updateValue, if_neg hk, if_neg hlt,
          updateValue, if_neg hk, if_neg hlt, ihl]

theorem rootPrioLe_updateValue (b : Nat) (t : TreapNode) (k v : Nat) :
    rootPrioLe b (updateValue t k v) = rootPrioLe b t := by
  cases t with
  | nil => simp [updateValue]
  | node p key val l r =>
    by_cases hk : key = k
    · rw [updateValue, if_pos hk]
      simp [rootPrioLe]
    · by_cases hlt : key < k
      · rw [updateValue, if_neg hk, if_pos hlt]
        simp [rootPrioLe]
      · rw [updateValue, if_neg hk, if_neg hlt]
        simp [rootPrioLe]

theorem heapInv_updateValue (t : TreapNode) (k v : Nat) :
    heapInv (updateValue t k v) = heapInv t := by
  induction t with
  | nil => simp [updateValue]
  | node p key val l r ihl ihr =>
    by_cases hk : key = k
    · rw [updateValue, if_pos hk]
      simp [heapInv]
    · by_cases hlt : key < k
      · rw [updateValue, if_neg hk, if_pos hlt]
        simp [heapInv, rootPrioLe_updateValue, ihr]
      · rw [updateValue, if_neg hk, if_neg hlt]
        simp [heapInv, rootPrioLe_updateValue, ihl]

/-! ### The effect of `remove`, analysed -/

theorem bst_const_keys_singleton (u : TreapNode) (k : Nat) (hb : bst u = true)
    (hall : ∀ x ∈ inorderKeys u, x = k) (hne : u ≠ nil) :
    inorderKeys u = [k] := by
  cases u with
  | nil => exact absurd rfl hne
  | node p key v l r =>
    simp only [bst, Bool.and_eq_true] at hb
    obtain ⟨⟨⟨hkl, hkr⟩, _⟩, _⟩ := hb
    rw [keysAll_iff] at hkl hkr
    have hkey : key = k := hall key (by simp [inorderKeys])
    have hl : inorderKeys l = [] := by
      rw [List.eq_nil_iff_forall_not_mem]
      intro x hx
      have h1 : x < key := by simpa using hkl x hx
      have h2 : x = k := hall x (by simp [inorderKeys, hx])
      omega
    have hr : inorderKeys r = [] := by
      rw [List.eq_nil_iff_forall_not_mem]
      intro x hx
      have h1 : key < x := by simpa using hkr x hx
      have h2 : x = k := hall x (by simp [inorderKeys, hx])
      omega
    simp [inorderKeys, hl, hr, hkey]

theorem remove_facts (s : Treap) (k : Nat)
    (hb : bst s.root = true) (hh : heapInv s.root = true) :
    bst (s.remove k).root = true ∧
    heapInv (s.remove k).root = true ∧
    k ∉ inorderKeys (s.remove k).root ∧
    (∀ x, x ≠ k → (x ∈ inorderKeys (s.remove k).root ↔ x ∈ inorderKeys s.root)) ∧
    (k ∈ inorderKeys s.root →
       (inorderKeys (s.remove k).root).length + 1 = (inorderKeys s.root).length ∧
       (s.remove k).nodeCount = s.nodeCount - 1) ∧
    (k ∉ inorderKeys s.root →
       inorderKeys (s.remove k).root = inorderKeys s.root ∧
       (s.remove k).nodeCount = s.nodeCount) := by
  have hb11 : bst (split s.root k SplitMode.LEQ).1 = true :=
    (split_bst s.root k SplitMode.LEQ hb).1
  have hb12 : bst (split s.root k SplitMode.LEQ).2 = true :=
    (split_bst s.root k SplitMode.LEQ hb).2
  have hb21 : bst (split (split s.root k SplitMode.LEQ).1 k SplitMode.LT).1 = true :=
    (split_bst _ k SplitMode.LT hb11).1
  have hb22 : bst (split (split s.root k SplitMode.LEQ).1 k SplitMode.LT).2 = true :=
    (split_bst _ k SplitMode.LT hb11).2
  have hsplit1 := inorder_split s.root k SplitMode.LEQ
  have hsplit2 := inorder_split (split s.root k SplitMode.LEQ).1 k SplitMode.LT
  have h1le : ∀ x ∈ inorderKeys (split s.root k SplitMode.LEQ).1, x ≤ k := by
    have := (keysAll_iff _ _).mp (split_bounds s.root k SplitMode.LEQ hb).1
    intro x hx
    simpa [splitGoesLeft] using this x hx
  have h1gt : ∀ x ∈ inorderKeys (split s.root k SplitMode.LEQ).2, k < x := by
    have := (keysAll_iff _ _).mp (split_bounds s.root k SplitMode.LEQ hb).2
    intro x hx
    have h := this x hx
    simp [splitGoesLeft] at h
    omega
  have h2lt : ∀ x ∈
      inorderKeys (split (split s.root k SplitMode.LEQ).1 k SplitMode.LT).1, x < k := by
    have := (keysAll_iff _ _).mp (split_bounds _ k SplitMode.LT hb11).1
    intro x hx
    simpa [splitGoesLeft] using this x hx
  have h2eq : ∀ x ∈
      inorderKeys (split (split s.root k SplitMode.LEQ).1 k SplitMode.LT).2, x = k := by
    have hge := (keysAll_iff _ _).mp (split_bounds _ k SplitMode.LT hb11).2
    intro x hx
    have h1 : x ≤ k := h1le x (mem_split_right _ k SplitMode.LT x hx)
    have h2 := hge x hx
    simp [splitGoesLeft] at h2
    omega
  have hroot : (s.remove k).root =
      merge (split (split s.root k SplitMode.LEQ).1 k SplitMode.LT).1
        (split s.root k SplitMode.LEQ).2 := rfl
  have hinorder : inorderKeys (s.remove k).root =
      inorderKeys (split (split s.root k SplitMode.LEQ).1 k SplitMode.LT).1 ++
      inorderKeys (split s.root k SplitMode.LEQ).2 := by
    rw [hroot, inorder_merge]
  have hbst : bst (s.remove k).root = true := by
    rw [hroot]
    refine merge_bst _ _ hb21 hb12 ?_
    intro x hx y hy
    have := h2lt x hx
    have := h1gt y hy
    omega
  have hheap : heapInv (s.remove k).root = true := by
    rw [hroot]
    have hh1 := split_heap s.root k SplitMode.LEQ hh
    have hh2 := split_heap _ k SplitMode.LT hh1.1
    exact (merge_heap _ _ hh2.1 hh1.2.1).1
  have hknot : k ∉ inorderKeys (s.remove k).root := by
    rw [hinorder]
    intro hmem
    rcases List.mem_append.mp hmem with hmem | hmem
    · exact absurd (h2lt k hmem) (by omega)
    · exact absurd (h1gt k hmem) (by omega)
  have hmemiff : ∀ x, x ≠ k →
      (x ∈ inorderKeys (s.remove k).root ↔ x ∈ inorderKeys s.root) := by
    intro x hxk
    rw [hinorder]
    constructor
    · intro hmem
      rcases List.mem_append.mp hmem with hmem | hmem
      · exact mem_split_left s.root k SplitMode.LEQ x
          (mem_split_left _ k SplitMode.LT x hmem)
      · exact mem_split_right s.root k SplitMode.LEQ x hmem
    · intro hmem
      rw [← hsplit1] at hmem
      rcases List.mem_append.mp hmem with hmem | hmem
      · rw [← hsplit2] at hmem
        rcases List.mem_append.mp hmem with hmem | hmem
        · exact List.mem_append_left _ hmem
        · exact absurd (h2eq x hmem) hxk
      · exact List.mem_append_right _ hmem
  refine ⟨hbst, hheap, hknot, hmemiff, ?_, ?_⟩
  · intro hkmem
    have hk21 : k ∈
        inorderKeys (split (split s.root k SplitMode.LEQ).1 k SplitMode.LT).2 := by
      rw [← hsplit1] at hkmem
      rcases List.mem_append.mp hkmem with hmem | hmem
      · rw [← hsplit2] at hmem
        rcases List.mem_append.mp hmem with hmem | hmem
        · exact absurd (h2lt k hmem) (by omega)
        · exact hmem
      · exact absurd (h1gt k hmem) (by omega)
    have hne : (split (split s.root k SplitMode.LEQ).1 k SplitMode.LT).2 ≠ nil := by
      intro hnil
      rw [hnil] at hk21
      simp [inorderKeys] at hk21
    have hsing : inorderKeys
        (split (split s.root k SplitMode.LEQ).1 k SplitMode.LT).2 = [k] :=
      bst_const_keys_singleton _ k hb22 h2eq hne
    constructor
    · have hlen1 := congrArg List.length hsplit1
      have hlen2 := congrArg List.length hsplit2
      rw [List.length_append] at hlen1 hlen2
      rw [hsing] at hlen2
      rw [hinorder, List.length_append]
      simp at hlen2
      omega
    · show (if (split (split s.root k SplitMode.LEQ).1 k SplitMode.LT).2 = nil
          then s.nodeCount else s.nodeCount - 1) = s.nodeCount - 1
      rw [if_neg hne]
  · intro hkmem
    have hnil : (split (split s.root k SplitMode.LEQ).1 k SplitMode.LT).2 = nil := by
      cases hcase : (split (split s.root k SplitMode.LEQ).1 k SplitMode.LT).2 with
      | nil => rfl
      | node p key v l r =>
        exfalso
        have hmem : key ∈ inorderKeys
            (split (split s.root k SplitMode.LEQ).1 k SplitMode.LT).2 := by
          rw [hcase]
          simp [inorderKeys]
        have hkeyk : key = k := h2eq key hmem
        have : key ∈ inorderKeys s.root :=
          mem_split_left s.root k SplitMode.LEQ key
            (mem_split_right _ k SplitMode.LT key hmem)
        rw [hkeyk] at this
        exact hkmem this
    constructor
    · rw [hinorder]
      rw [hnil] at hsplit2
      simp [inorderKeys] at hsplit2
      rw [hsplit2]
      exact hsplit1
    · show (if (split (split s.root k SplitMode.LEQ).1 k SplitMode.LT).2 = nil
          then s.nodeCount else s.nodeCount - 1) = s.nodeCount
      rw [if_pos hnil]

/-! ### The effect of `upsert`, analysed -/

theorem upsert_found_state (s : Treap) (k v : Nat) (n : TreapNode)
    (hf : find s.root k = some n) :
    s.upsert k v = { s with root := updateValue s.root k v } := by
  unfold Treap.upsert
  rw [hf]

theorem upsert_new_state (s : Treap) (k v : Nat) (hf : find s.root k = none) :
    s.upsert k v =
      { root := merge (merge (split s.root k SplitMode.LEQ).1
            (node (prngNext s.prngSeed) k v nil nil))
          (split s.root k SplitMode.LEQ).2,
        prngSeed := prngNext s.prngSeed,
        nodeCount := s.nodeCount + 1 } := by
  unfold Treap.upsert
  rw [hf]

theorem upsert_new_facts (s : Treap) (k v : Nat)
    (hb : bst s.root = true) (hh : heapInv s.root = true)
    (hf : find s.root k = none) :
    bst (s.upsert k v).root = true ∧
    heapInv (s.upsert k v).root = true ∧
    inorderKeys (s.upsert k v).root =
      inorderKeys (split s.root k SplitMode.LEQ).1 ++
        k :: inorderKeys (split s.root k SplitMode.LEQ).2 ∧
    (inorderKeys (s.upsert k v).root).length = (inorderKeys s.root).length + 1 ∧
    (s.upsert k v).nodeCount = s.nodeCount + 1 := by
  have hknot : k ∉ inorderKeys s.root := not_mem_of_find_eq_none s.root k hb hf
  have hb1 : bst (split s.root k SplitMode.LEQ).1 = true :=
    (split_bst s.root k SplitMode.LEQ hb).1
  have hb2 : bst (split s.root k SplitMode.LEQ).2 = true :=
    (split_bst s.root k SplitMode.LEQ hb).2
  have h1lt : ∀ x ∈ inorderKeys (split s.root k SplitMode.LEQ).1, x < k := by
    have := (keysAll_iff _ _).mp (split_bounds s.root k SplitMode.LEQ hb).1
    intro x hx
    have hle : x ≤ k := by simpa [splitGoesLeft] using this x hx
    have hne : x ≠ k := by
      intro he
      exact hknot (he ▸ mem_split_left s.root k SplitMode.LEQ x hx)
    omega
  have h2gt : ∀ x ∈ inorderKeys (split s.root k SplitMode.LEQ).2, k < x := by
    have := (keysAll_iff _ _).mp (split_bounds s.root k SplitMode.LEQ hb).2
    intro x hx
    have h := this x hx
    simp [splitGoesLeft] at h
    omega
  have hstate := upsert_new_state s k v hf
  have hbn : bst (node (prngNext s.prngSeed) k v nil nil) = true := by
    simp [bst, keysAll]
  have hinner : bst (merge (split s.root k SplitMode.LEQ).1
      (node (prngNext s.prngSeed) k v nil nil)) = true := by
    refine merge_bst _ _ hb1 hbn ?_
    intro x hx y hy
    simp [inorderKeys] at hy
    rw [hy]
    exact h1lt x hx
  have hbst : bst (s.upsert k v).root = true := by
    rw [hstate]
    refine merge_bst _ _ hinner hb2 ?_
    intro x hx y hy
    rw [inorder_merge] at hx
    have hyk := h2gt y hy
    rcases List.mem_append.mp hx with hx | hx
    · have := h1lt x hx
      omega
    · simp [inorderKeys] at hx
      omega
  have hheap : heapInv (s.upsert k v).root = true := by
    rw [hstate]
    have hhn : heapInv (node (prngNext s.prngSeed) k v nil nil) = true := by
      simp [heapInv, rootPrioLe]
    have hh1 := split_heap s.root k SplitMode.LEQ hh
    exact (merge_heap _ _ (merge_heap _ _ hh1.1 hhn).1 hh1.2.1).1
  have hinorder : inorderKeys (s.upsert k v).root =
      inorderKeys (split s.root k SplitMode.LEQ).1 ++
        k :: inorderKeys (split s.root k SplitMode.LEQ).2 := by
    rw [hstate]
    show inorderKeys (merge (merge _ _) _) = _
    rw [inorder_merge, inorder_merge]
    simp [inorderKeys]
  have hlen : (inorderKeys (s.upsert k v).root).length =
      (inorderKeys s.root).length + 1 := by
    rw [hinorder]
    have := congrArg List.length (inorder_split s.root k SplitMode.LEQ)
    rw [List.length_append] at this
    simp only [List.length_append, List.length_cons]
    omega
  exact ⟨hbst, hheap, hinorder, hlen, by rw [hstate]⟩

/-! ### The container invariant, preserved by every operation -/

/-- The invariant of a treap object: the tree is a binary search tree with
unique keys, the heap (priority) invariant holds, and the tracked node
count equals the number of nodes. -/
def goodState (s : Treap) : Prop :=
  bst s.root = true ∧ heapInv s.root = true ∧
  s.nodeCount = ((inorderKeys s.root).length : Int)

theorem upsert_good (s : Treap) (k v : Nat) (h : goodState s) :
    goodState (s.upsert k v) := by
  obtain ⟨hb, hh, hc⟩ := h
  cases hf : find s.root k with
  | some n =>
    rw [upsert_found_state s k v n hf]
    refine ⟨?_, ?_, ?_⟩
    · simpa [bst_updateValue] using hb
    · simpa [heapInv_updateValue] using hh
    · simpa [inorderKeys_updateValue] using hc
  | none =>
    obtain ⟨hbst, hheap, _, hlen, hcount⟩ := upsert_new_facts s k v hb hh hf
    refine ⟨hbst, hheap, ?_⟩
    rw [hcount, hlen, hc]
    push_cast
    ring

theorem remove_good (s : Treap) (k : Nat) (h : goodState s) :
    goodState (s.remove k) := by
  obtain ⟨hb, hh, hc⟩ := h
  obtain ⟨hbst, hheap, _, _, hpres, habs⟩ := remove_facts s k hb hh
  refine ⟨hbst, hheap, ?_⟩
  by_cases hk : k ∈ inorderKeys s.root
  · obtain ⟨hlen, hcount⟩ := hpres hk
    rw [hcount, hc]
    omega
  · obtain ⟨hlen, hcount⟩ := habs hk
    rw [hcount, hc, hlen]

theorem applyOp_good (s : Treap) (op : Op) (h : goodState s) :
    goodState (applyOp s op) := by
  cases op with
  | upsertOp k v => exact upsert_good s k v h
  | removeOp k => exact remove_good s k h
  | findOp k => exact h
  | closestLeqOp k => exact h
  | visitInOrderOp => exact h
  | visitRangeOp lo hi => exact h

theorem runFrom_good (ops : List Op) (s : Treap) (h : goodState s) :
    goodState (runFrom s ops) := by
  induction ops generalizing s with
  | nil => exact h
  | cons op rest ih => exact ih (applyOp s op) (applyOp_good s op h)

theorem runOps_good (seed : Nat) (ops : List Op) : goodState (runOps seed ops) := by
  refine runFrom_good ops (Treap.new seed) ?_
  refine ⟨rfl, rfl, ?_⟩
  simp [Treap.new, inorderKeys]

/-! ### `closest_leq`, analysed -/

theorem closestLeqGo_spec (k : Nat) (t : TreapNode) : ∀ (cand : Option TreapNode),
    bst t = true →
    (∀ c, cand = some c → nodeKey c < k ∧ ∀ x ∈ inorderKeys t, nodeKey c < x) →
    (closestLeqGo cand t k = none → cand = none ∧ ∀ x ∈ inorderKeys t, k < x) ∧
    (∀ n, closestLeqGo cand t k = some n →
       nodeKey n ≤ k ∧ (cand = some n ∨ nodeKey n ∈ inorderKeys t) ∧
       (∀ c, cand = some c → nodeKey c ≤ nodeKey n) ∧
       (∀ x ∈ inorderKeys t, x ≤ k → x ≤ nodeKey n)) := by
  induction t with
  | nil =>
    intro cand _ hcand
    constructor
    · intro hres
      rw [closestLeqGo] at hres
      exact ⟨hres, by simp [inorderKeys]⟩
    · intro n hres
      rw [closestLeqGo] at hres
      refine ⟨?_, Or.inl hres, ?_, by simp [inorderKeys]⟩
      · exact le_of_lt (hcand n hres).1
      · intro c hc
        rw [hres] at hc
        cases hc
        exact le_refl _
  | node p key v l r ihl ihr =>
    intro cand hb hcand
    simp only [bst, Bool.and_eq_true] at hb
    obtain ⟨⟨⟨hkl, hkr⟩, hbl⟩, hbr⟩ := hb
    rw [keysAll_iff] at hkl hkr
    have hkey_mem : key ∈ inorderKeys (node p key v l r) := by simp [inorderKeys]
    by_cases hk : key = k
    · rw [closestLeqGo, if_pos hk]
      constructor
      · intro hres
        cases hres
      · intro n hres
        cases hres
        refine ⟨by simp [nodeKey, hk], Or.inr (by simpa [nodeKey] using hkey_mem),
          ?_, ?_⟩
        · intro c hc
          exact le_of_lt (by simpa [nodeKey, hk] using (hcand c hc).1)
        · intro x _ hx
          simp [nodeKey, hk]
          omega
    · by_cases hlt : key < k
      · rw [closestLeqGo, if_neg hk, if_pos hlt]
        have hcand' : ∀ c, some (node p key v l r) = some c →
            nodeKey c < k ∧ ∀ x ∈ inorderKeys r, nodeKey c < x := by
          intro c hc
          cases hc
          refine ⟨by simpa [nodeKey] using hlt, ?_⟩
          intro x hx
          simpa [nodeKey] using hkr x hx
        obtain ⟨ihn, ihs⟩ := ihr (some (node p key v l r)) hbr hcand'
        constructor
        · intro hres
          obtain ⟨habs, _⟩ := ihn hres
          cases habs
        · intro n hres
          obtain ⟨h1, h2, h3, h4⟩ := ihs n hres
          have hkeyn : key ≤ nodeKey n := by
            simpa [nodeKey] using h3 (node p key v l r) rfl
          refine ⟨h1, ?_, ?_, ?_⟩
          · rcases h2 with h2 | h2
            · right
              cases h2
              simpa [nodeKey] using hkey_mem
            · right
              simp [inorderKeys]
              tauto
          · intro c hc
            have := (hcand c hc).2 key hkey_mem
            omega
          · intro x hx hxk
            simp only [inorderKeys, List.mem_append, List.mem_cons] at hx
            rcases hx with hx | hx | hx
            · have : x < key := by simpa using hkl x hx
              omega
            · omega
            · exact h4 x hx hxk
      · have hgt : k < key := by omega
        rw [closestLeqGo, if_neg hk, if_neg hlt]
        have hcand' : ∀ c, cand = some c →
            nodeKey c < k ∧ ∀ x ∈ inorderKeys l, nodeKey c < x := by
          intro c hc
          obtain ⟨h1, h2⟩ := hcand c hc
          refine ⟨h1, ?_⟩
          intro x hx
          refine h2 x ?_
          simp [inorderKeys, hx]
        obtain ⟨ihn, ihs⟩ := ihl cand hbl hcand'
        constructor
        · intro hres
          obtain ⟨h1, h2⟩ := ihn hres
          refine ⟨h1, ?_⟩
          intro x hx
          simp only [inorderKeys, List.mem_append, List.mem_cons] at hx
          rcases hx with hx | hx | hx
          · exact h2 x hx
          · omega
          · have := hkr x hx
            simp at this
            omega
        · intro n hres
          obtain ⟨h1, h2, h3, h4⟩ := ihs n hres
          refine ⟨h1, ?_, h3, ?_⟩
          · rcases h2 with h2 | h2
            · exact Or.inl h2
            · right
              simp [inorderKeys]
              tauto
          · intro x hx hxk
            simp only [inorderKeys, List.mem_append, List.mem_cons] at hx
            rcases hx with hx | hx | hx
            · exact h4 x hx hxk
            · omega
            · have := hkr x hx
              simp at this
              omega

/-! ### `visit_range_in_order`, analysed -/

theorem rangeKeys_eq_filter (t : TreapNode) (lo hi : Nat) (hb : bst t = true) :
    rangeKeys t lo hi =
      (inorderKeys t).filter (fun x => decide (lo ≤ x) && decide (x < hi)) := by
  induction t with
  | nil => simp [rangeKeys, inorderKeys]
  | node p k v l r ihl ihr =>
    simp only [bst, Bool.and_eq_true] at hb
    obtain ⟨⟨⟨hkl, hkr⟩, hbl⟩, hbr⟩ := hb
    rw [keysAll_iff] at hkl hkr
    have hfl : ¬ lo ≤ k → (inorderKeys l).filter
        (fun x => decide (lo ≤ x) && decide (x < hi)) = [] := by
      intro hlo
      rw [List.filter_eq_nil_iff]
      intro x hx
      have := hkl x hx
      simp at this ⊢
      omega
    have hfr : ¬ k < hi → (inorderKeys r).filter
        (fun x => decide (lo ≤ x) && decide (x < hi)) = [] := by
      intro hhi
      rw [List.filter_eq_nil_iff]
      intro x hx
      have := hkr x hx
      simp at this ⊢
      omega
    rw [rangeKeys]
    simp only [inorderKeys, List.filter_append, List.filter_cons]
    by_cases h1 : lo ≤ k
    · by_cases h2 : k < hi
      · rw [if_pos h1, if_pos ⟨h1, h2⟩, if_pos h2, ihl hbl, ihr hbr,
          if_pos (by simp [h1, h2])]
        simp
      · rw [if_pos h1, if_neg (by tauto), if_neg h2, ihl hbl,
          if_neg (by simp [h2]), hfr h2]
        simp
    · by_cases h2 : k < hi
      · rw [if_neg h1, if_neg (by tauto), if_pos h2, ihr hbr,
          if_neg (by simp [h1]), hfl h1]
        simp
      · rw [if_neg h1, if_neg (by tauto), if_neg h2,
          if_neg (by simp [h1]), hfl h1, hfr h2]
        simp

/-! ### The `verify_self` ordering pass and the seed discipline -/

theorem foldl_orderCheckStep_failed (l : List Nat) :
    ∀ s : OrderCheckState, s.failed = false →
      (l.foldl orderCheckStep s).failed = false := by
  induction l with
  | nil => intro s h; exact h
  | cons x xs ih =>
    intro s h
    refine ih _ ?_
    cases hls : s.lastSeen with
    | none => simp [orderCheckStep, hls, h]
    | some lk =>
      simp only [orderCheckStep, hls]
      by_cases hgt : lk > x
      · simp [hgt]
      · simp [hgt, h]

theorem remove_prngSeed (s : Treap) (k : Nat) :
    (s.remove k).prngSeed = s.prngSeed := rfl

theorem applyOp_prngSeed (s : Treap) (op : Op) :
    (applyOp s op).prngSeed =
      (if isNewInsert s op then prngNext s.prngSeed else s.prngSeed) := by
  cases op with
  | upsertOp k v =>
    cases hf : find s.root k with
    | some n =>
      have h := upsert_found_state s k v n hf
      show (s.upsert k v).prngSeed = _
      rw [h]
      simp [isNewInsert, hf]
    | none =>
      have h := upsert_new_state s k v hf
      show (s.upsert k v).prngSeed = _
      rw [h]
      simp [isNewInsert, hf]
  | removeOp k => simp [applyOp, remove_prngSeed, isNewInsert]
  | findOp k => simp [applyOp, isNewInsert]
  | closestLeqOp k => simp [applyOp, isNewInsert]
  | visitInOrderOp => simp [applyOp, isNewInsert]
  | visitRangeOp lo hi => simp [applyOp, isNewInsert]

theorem runFrom_prngSeed (ops : List Op) : ∀ s : Treap,
    (runFrom s ops).prngSeed = prngIterate s.prngSeed (newInserts s ops) := by
  induction ops with
  | nil => intro s; rfl
  | cons op rest ih =>
    intro s
    show (runFrom (applyOp s op) rest).prngSeed = _
    rw [ih (applyOp s op), newInserts]
    by_cases h : isNewInsert s op = true
    · rw [if_pos h]
      have hseed := applyOp_prngSeed s op
      rw [if_pos h] at hseed
      rw [hseed, Nat.add_comm 1 _]
      rfl
    · rw [if_neg h]
      have hseed := applyOp_prngSeed s op
      rw [if_neg h] at hseed
      rw [hseed]
      simp

/-! ### Concrete example trees used by witnesses and counterexamples -/

/-- A treap with keys `{10, 20, 30}` (the example of the spec), with
pairwise distinct priorities. -/
def exTree3 : TreapNode :=
  node 10 20 0 (node 5 10 0 nil nil) (node 3 30 0 nil nil)

/-- `exTree3` as a container state with the matching node count. -/
def exTreap3 : Treap := { root := exTree3, prngSeed := 0, nodeCount := 3 }

/-- A treap with keys `{5, 10, 20, 30, 40}` (the range-traversal example
of the spec). -/
def exTree5 : TreapNode :=
  node 20 20 0 (node 10 10 0 (node 5 5 0 nil nil) nil)
    (node 15 30 0 nil (node 7 40 0 nil nil))

/-- `exTree5` as a container state with the matching node count. -/
def exTreap5 : Treap := { root := exTree5, prngSeed := 0, nodeCount := 5 }

/-- A tree with a tied parent/child priority: legal under the spec's heap
invariant (`P.priority ≥ N.priority`, ties permitted). -/
def tieTree : TreapNode := node 5 10 0 nil (node 5 20 0 nil nil)

/-- `tieTree` as a container state with the matching node count. -/
def tieTreap : Treap := { root := tieTree, prngSeed := 0, nodeCount := 2 }

theorem merge_nil_left (r : TreapNode) : merge nil r = r := by
  rw [merge]

/-- `upsert` on a freshly constructed (empty) container, evaluated. -/
theorem upsert_empty (seed k v : Nat) :
    (Treap.new seed).upsert k v =
      { root := node (prngNext seed) k v nil nil,
        prngSeed := prngNext seed, nodeCount := 1 } := by
  rw [upsert_new_state (Treap.new seed) k v rfl]
  have h1 : (Treap.new seed).root = nil := rfl
  have h2 : (Treap.new seed).prngSeed = seed := rfl
  have h3 : (Treap.new seed).nodeCount = 0 := rfl
  rw [h1, h2, h3, split, merge_nil_left, merge_nil_right]
  norm_num

theorem second_split_nil (t : TreapNode) (k : Nat) (hb : bst t = true)
    (hk : k ∉ inorderKeys t) :
    (split (split t k SplitMode.LEQ).1 k SplitMode.LT).2 = nil := by
  have hb11 := (split_bst t k SplitMode.LEQ hb).1
  have h1le : ∀ x ∈ inorderKeys (split t k SplitMode.LEQ).1, x ≤ k := by
    have := (keysAll_iff _ _).mp (split_bounds t k SplitMode.LEQ hb).1
    intro x hx
    simpa [splitGoesLeft] using this x hx
  have h2ge := (keysAll_iff _ _).mp (split_bounds _ k SplitMode.LT hb11).2
  cases hcase : (split (split t k SplitMode.LEQ).1 k SplitMode.LT).2 with
  | nil => rfl
  | node p key v l r =>
    exfalso
    have hmem : key ∈ inorderKeys (split (split t k SplitMode.LEQ).1 k SplitMode.LT).2 := by
      rw [hcase]
      simp [inorderKeys]
    have h1 : key ≤ k := h1le key (mem_split_right _ k SplitMode.LT key hmem)
    have h2 := h2ge key hmem
    simp [splitGoesLeft] at h2
    have hkeyk : key = k := by omega
    have : key ∈ inorderKeys t :=
      mem_split_left t k SplitMode.LEQ key
        (mem_split_right _ k SplitMode.LT key hmem)
    rw [hkeyk] at this
    exact hk this

/-! ## The claims -/

/-- Claim C1 (code bug evidence): `remove_all()` zeroes `_node_count` and
frees every node, but never assigns `_root = nullptr`.  On the concrete
container obtained by one `upsert(10, 1)` on a fresh `Treap(0)`,
`remove_all()` leaves count `0` as claimed, yet the root is NOT empty,
the in-order traversal still visits key `10`, and a subsequent
`upsert(10, 2)` does not behave as on a freshly constructed container
(it takes the found/overwrite path against the stale tree instead of
inserting). -/
theorem removeAll_root_not_cleared :
    (((Treap.new 0).upsert 10 1).removeAll).nodeCount = 0 ∧
    (((Treap.new 0).upsert 10 1).removeAll).root ≠ nil ∧
    inorderKeys (((Treap.new 0).upsert 10 1).removeAll).root = [10] ∧
    (((Treap.new 0).upsert 10 1).removeAll).prngSeed = 11 ∧
    (((Treap.new 0).upsert 10 1).removeAll).upsert 10 2 ≠ (Treap.new 11).upsert 10 2 := by
  rw [upsert_empty 0 10 1, upsert_empty 11 10 2]
  refine ⟨by decide, by decide, by decide, by decide, ?_⟩
  decide

/-- Claim C2: for every tree satisfying the treap invariants and every
key `k` (in either split mode, in particular the default `LEQ`), merging
the two trees returned by `split(T, k)` yields a tree whose in-order key
sequence — hence whose key set — is exactly that of `T`. -/
theorem split_merge_preserves_keys (t : TreapNode) (k : Nat) (m : SplitMode)
    (hb : bst t = true) (hh : heapInv t = true) :
    inorderKeys (merge (split t k m).1 (split t k m).2) = inorderKeys t ∧
    ∀ x, x ∈ inorderKeys (merge (split t k m).1 (split t k m).2) ↔
      x ∈ inorderKeys t := by
  have h : inorderKeys (merge (split t k m).1 (split t k m).2) = inorderKeys t := by
    rw [inorder_merge, inorder_split]
  exact ⟨h, fun x => by rw [h]⟩

/-- Witness for C2 at the concrete treap with keys `{10, 20, 30}`,
split key `20`. -/
theorem split_merge_preserves_keys_witness :
    bst exTree3 = true ∧ heapInv exTree3 = true ∧
    (inorderKeys (merge (split exTree3 20 SplitMode.LEQ).1
        (split exTree3 20 SplitMode.LEQ).2) = inorderKeys exTree3 ∧
     ∀ x, x ∈ inorderKeys (merge (split exTree3 20 SplitMode.LEQ).1
        (split exTree3 20 SplitMode.LEQ).2) ↔ x ∈ inorderKeys exTree3) :=
  ⟨by decide, by decide,
    split_merge_preserves_keys exTree3 20 SplitMode.LEQ (by decide) (by decide)⟩

/-- Claim C3: for every finite sequence of operations starting from an
empty container, after each operation (i.e. after running any such
sequence) the in-order traversal yields strictly increasing keys, its
length equals the tracked node count, and every node's priority is `≤`
its parent's priority (`heapInv`). -/
theorem ops_preserve_invariants (seed : Nat) (ops : List Op) :
    (inorderKeys (runOps seed ops).root).Pairwise (fun a b => a < b) ∧
    ((inorderKeys (runOps seed ops).root).length : Int) = (runOps seed ops).nodeCount ∧
    heapInv (runOps seed ops).root = true := by
  obtain ⟨hb, hh, hc⟩ := runOps_good seed ops
  exact ⟨pairwise_inorder _ hb, hc.symm, hh⟩

/-- Claim C4: on a treap satisfying the invariants, `closest_leq(k)`
returns the node with key `k` when present; otherwise the node with the
largest key strictly below `k` when one exists; and `none` when every
key exceeds `k` (in particular on the empty tree, whose key list has no
members). -/
theorem closest_leq_spec (s : Treap) (k : Nat)
    (hb : bst s.root = true) (hh : heapInv s.root = true) :
    (k ∈ inorderKeys s.root →
       ∃ n, s.closestLeq k = some n ∧ nodeKey n = k) ∧
    (k ∉ inorderKeys s.root → (∃ x ∈ inorderKeys s.root, x < k) →
       ∃ n, s.closestLeq k = some n ∧ nodeKey n ∈ inorderKeys s.root ∧
         nodeKey n < k ∧ ∀ x ∈ inorderKeys s.root, x < k → x ≤ nodeKey n) ∧
    ((∀ x ∈ inorderKeys s.root, k < x) → s.closestLeq k = none) := by
  have hcl : s.closestLeq k = closestLeqGo none s.root k := rfl
  obtain ⟨hnone, hsome⟩ :=
    closestLeqGo_spec k s.root none hb (by intro c hc; cases hc)
  refine ⟨?_, ?_, ?_⟩
  · intro hk
    cases hres : closestLeqGo none s.root k with
    | none =>
      exfalso
      exact absurd ((hnone hres).2 k hk) (by omega)
    | some n =>
      obtain ⟨h1, _, _, h4⟩ := hsome n hres
      refine ⟨n, by rw [hcl, hres], ?_⟩
      have := h4 k hk (le_refl k)
      omega
  · intro hk hex
    obtain ⟨x0, hx0mem, hx0lt⟩ := hex
    cases hres : closestLeqGo none s.root k with
    | none =>
      exfalso
      exact absurd ((hnone hres).2 x0 hx0mem) (by omega)
    | some n =>
      obtain ⟨h1, h2, _, h4⟩ := hsome n hres
      have hmem : nodeKey n ∈ inorderKeys s.root := by
        rcases h2 with h2 | h2
        · cases h2
        · exact h2
      refine ⟨n, by rw [hcl, hres], hmem, ?_, ?_⟩
      · have hne : nodeKey n ≠ k := fun he => hk (he ▸ hmem)
        omega
      · intro x hx hxlt
        exact h4 x hx (by omega)
  · intro hall
    cases hres : closestLeqGo none s.root k with
    | none => rw [hcl, hres]
    | some n =>
      exfalso
      obtain ⟨h1, h2, _, _⟩ := hsome n hres
      have hmem : nodeKey n ∈ inorderKeys s.root := by
        rcases h2 with h2 | h2
        · cases h2
        · exact h2
      exact absurd (hall (nodeKey n) hmem) (by omega)

/-- Witness for C4 at the spec's example: keys `{10, 20, 30}`, query `25`
(and, through the quantifiers, every query against that tree). -/
theorem closest_leq_spec_witness :
    bst exTreap3.root = true ∧ heapInv exTreap3.root = true ∧
    ((25 ∈ inorderKeys exTreap3.root →
       ∃ n, exTreap3.closestLeq 25 = some n ∧ nodeKey n = 25) ∧
     (25 ∉ inorderKeys exTreap3.root → (∃ x ∈ inorderKeys exTreap3.root, x < 25) →
       ∃ n, exTreap3.closestLeq 25 = some n ∧ nodeKey n ∈ inorderKeys exTreap3.root ∧
         nodeKey n < 25 ∧ ∀ x ∈ inorderKeys exTreap3.root, x < 25 → x ≤ nodeKey n) ∧
     ((∀ x ∈ inorderKeys exTreap3.root, 25 < x) → exTreap3.closestLeq 25 = none)) :=
  ⟨by decide, by decide, closest_leq_spec exTreap3 25 (by decide) (by decide)⟩

/-- Claim C5, counterexample: `tieTreap` satisfies the treap invariants
as the spec states them (BST order, `P.priority ≥ N.priority` with ties
permitted, count consistent), key `15` is absent, yet `remove(15)`
changes the tree shape: the tied-priority chain `10 → 20` is reassembled
with `20` on top. -/
theorem remove_absent_can_restructure :
    bst tieTreap.root = true ∧ heapInv tieTreap.root = true ∧
    tieTreap.nodeCount = ((inorderKeys tieTreap.root).length : Int) ∧
    find tieTreap.root 15 = none ∧
    (tieTreap.remove 15).root ≠ tieTreap.root := by
  refine ⟨by decide, by decide, by decide, by decide, ?_⟩
  have h1 : split tieTreap.root 15 SplitMode.LEQ =
      (node 5 10 0 nil nil, node 5 20 0 nil nil) := by decide
  have h2 : split (node 5 10 0 nil nil) 15 SplitMode.LT =
      (node 5 10 0 nil nil, nil) := by decide
  have h : (tieTreap.remove 15).root =
      merge (node 5 10 0 nil nil) (node 5 20 0 nil nil) := by
    show merge (split (split tieTreap.root 15 SplitMode.LEQ).1 15 SplitMode.LT).1
        (split tieTreap.root 15 SplitMode.LEQ).2 = _
    rw [h1, h2]
  rw [h, merge]
  decide

/-- Claim C5 (amended): on a treap whose priorities satisfy the strict
heap invariant stated in the source's header comment (parent strictly
above children — in particular whenever priorities are pairwise
distinct), `remove(k)` for an absent key `k` is a complete no-op: the
whole container state, hence tree shape, node count and all findable
keys, is unchanged, and no error is possible. -/
theorem remove_absent_noop (s : Treap) (k : Nat)
    (hb : bst s.root = true) (hs : heapStrict s.root = true)
    (hk : k ∉ inorderKeys s.root) :
    s.remove k = s := by
  have hb1 := (split_bst s.root k SplitMode.LEQ hb).1
  have hs1 := (split_heapStrict s.root k SplitMode.LEQ hs).1
  have hnil := second_split_nil s.root k hb hk
  have hid1 := split_merge_id (split s.root k SplitMode.LEQ).1 k SplitMode.LT hb1 hs1
  rw [hnil, merge_nil_right] at hid1
  have hid0 := split_merge_id s.root k SplitMode.LEQ hb hs
  show ({ s with
      root := merge (split (split s.root k SplitMode.LEQ).1 k SplitMode.LT).1
        (split s.root k SplitMode.LEQ).2,
      nodeCount := if (split (split s.root k SplitMode.LEQ).1 k SplitMode.LT).2 = nil
        then s.nodeCount else s.nodeCount - 1 } : Treap) = s
  rw [hnil, if_pos rfl, hid1, hid0]

/-- Witness for the amended C5: keys `{10, 20, 30}` with distinct
priorities, removing the absent key `15` returns the state unchanged. -/
theorem remove_absent_noop_witness :
    bst exTreap3.root = true ∧ heapStrict exTreap3.root = true ∧
    15 ∉ inorderKeys exTreap3.root ∧ exTreap3.remove 15 = exTreap3 :=
  ⟨by decide, by decide, by decide,
    remove_absent_noop exTreap3 15 (by decide) (by decide) (by decide)⟩

/-- Claim C6: on a treap satisfying the invariants, removing a present
key `k` decrements the tracked node count by exactly `1`, a subsequent
`find(k)` returns `none`, and every other key remains findable. -/
theorem remove_present_spec (s : Treap) (k : Nat)
    (hb : bst s.root = true) (hh : heapInv s.root = true)
    (hk : k ∈ inorderKeys s.root) :
    (s.remove k).nodeCount = s.nodeCount - 1 ∧
    find (s.remove k).root k = none ∧
    ∀ x ∈ inorderKeys s.root, x ≠ k → (find (s.remove k).root x).isSome = true := by
  obtain ⟨hbst, _, hknot, hmemiff, hpres, _⟩ := remove_facts s k hb hh
  refine ⟨(hpres hk).2, find_eq_none_of_not_mem _ _ hknot, ?_⟩
  intro x hx hxk
  exact find_isSome_of_mem _ x hbst ((hmemiff x hxk).mpr hx)

/-- Witness for C6: removing the present key `20` from the treap with
keys `{10, 20, 30}`. -/
theorem remove_present_spec_witness :
    bst exTreap3.root = true ∧ heapInv exTreap3.root = true ∧
    20 ∈ inorderKeys exTreap3.root ∧
    ((exTreap3.remove 20).nodeCount = exTreap3.nodeCount - 1 ∧
     find (exTreap3.remove 20).root 20 = none ∧
     ∀ x ∈ inorderKeys exTreap3.root, x ≠ 20 →
       (find (exTreap3.remove 20).root x).isSome = true) :=
  ⟨by decide, by decide, by decide,
    remove_present_spec exTreap3 20 (by decide) (by decide) (by decide)⟩

/-- Claim C7: on a tree (BST-ordered, as the container maintains) that
contains key `k`, `upsert(k, v1)` followed by `upsert(k, v2)` leaves a
state equal to that of a single `upsert(k, v2)` (same shape, same
everything), `find(k)` then returns value `v2`, the node count is
unchanged, and the existing node's priority is unchanged. -/
theorem upsert_existing_overwrites (s : Treap) (k v1 v2 : Nat)
    (hb : bst s.root = true) (hk : k ∈ inorderKeys s.root) :
    (s.upsert k v1).upsert k v2 = s.upsert k v2 ∧
    findValue ((s.upsert k v1).upsert k v2).root k = some v2 ∧
    ((s.upsert k v1).upsert k v2).nodeCount = s.nodeCount ∧
    findPrio ((s.upsert k v1).upsert k v2).root k = findPrio s.root k := by
  obtain ⟨n, hn⟩ := Option.isSome_iff_exists.mp (find_isSome_of_mem s.root k hb hk)
  obtain ⟨⟨p, v, l, r, hnn⟩, _⟩ := find_eq_some s.root k n hn
  subst hnn
  have h1 : s.upsert k v1 = { s with root := updateValue s.root k v1 } :=
    upsert_found_state s k v1 _ hn
  have hf1 : find (updateValue s.root k v1) k = some (node p k v1 l r) := by
    rw [find_updateValue_self, hn]
    rfl
  have h2 : (s.upsert k v1).upsert k v2 =
      { s with root := updateValue s.root k v2 } := by
    rw [upsert_found_state (s.upsert k v1) k v2 _ (by rw [h1]; exact hf1), h1]
    simp [updateValue_updateValue]
  have h3 : s.upsert k v2 = { s with root := updateValue s.root k v2 } :=
    upsert_found_state s k v2 _ hn
  have hf2 : find (updateValue s.root k v2) k = some (node p k v2 l r) := by
    rw [find_updateValue_self, hn]
    rfl
  refine ⟨by rw [h2, h3], ?_, by rw [h2], ?_⟩
  · rw [h2]
    show findValue (updateValue s.root k v2) k = some v2
    rw [findValue, hf2]
    rfl
  · rw [h2]
    show findPrio (updateValue s.root k v2) k = findPrio s.root k
    rw [findPrio, findPrio, hf2, hn]
    rfl

/-- Witness for C7: overwriting the value at the present key `20` twice
in the treap with keys `{10, 20, 30}`. -/
theorem upsert_existing_overwrites_witness :
    bst exTreap3.root = true ∧ 20 ∈ inorderKeys exTreap3.root ∧
    ((exTreap3.upsert 20 1).upsert 20 2 = exTreap3.upsert 20 2 ∧
     findValue ((exTreap3.upsert 20 1).upsert 20 2).root 20 = some 2 ∧
     ((exTreap3.upsert 20 1).upsert 20 2).nodeCount = exTreap3.nodeCount ∧
     findPrio ((exTreap3.upsert 20 1).upsert 20 2).root 20 = findPrio exTreap3.root 20) :=
  ⟨by decide, by decide,
    upsert_existing_overwrites exTreap3 20 1 2 (by decide) (by decide)⟩

/-- Claim C8: on a treap satisfying the invariants,
`visit_range_in_order(from, to, f)` visits, in ascending key order,
exactly the keys `x` with `from ≤ x < to` (half-open interval): the
visited sequence is the `[lo, hi)` filter of the sorted in-order key
sequence, and is itself strictly increasing. -/
theorem visit_range_in_order_spec (s : Treap) (lo hi : Nat)
    (hb : bst s.root = true) (hh : heapInv s.root = true) :
    rangeKeys s.root lo hi =
      (inorderKeys s.root).filter (fun x => decide (lo ≤ x) && decide (x < hi)) ∧
    (rangeKeys s.root lo hi).Pairwise (fun a b => a < b) := by
  refine ⟨rangeKeys_eq_filter s.root lo hi hb, ?_⟩
  rw [rangeKeys_eq_filter s.root lo hi hb]
  exact (pairwise_inorder s.root hb).sublist (List.filter_sublist _)

/-- Witness for C8 at the spec's example: keys `{5, 10, 20, 30, 40}`,
`from = 10`, `to = 30`, which visits exactly `[10, 20]`. -/
theorem visit_range_in_order_spec_witness :
    bst exTreap5.root = true ∧ heapInv exTreap5.root = true ∧
    rangeKeys exTreap5.root 10 30 = [10, 20] ∧
    (rangeKeys exTreap5.root 10 30 =
      (inorderKeys exTreap5.root).filter (fun x => decide (10 ≤ x) && decide (x < 30)) ∧
     (rangeKeys exTreap5.root 10 30).Pairwise (fun a b => a < b)) :=
  ⟨by decide, by decide, by decide,
    visit_range_in_order_spec exTreap5 10 30 (by decide) (by decide)⟩

/-- Claim C9: for every tree — in particular trees whose in-order key
sequence is NOT strictly increasing — the `failed` flag of
`verify_self`'s key-ordering pass is still `false` when the pass
completes (the code writes `failed = false` where `failed = true` was
intended), so `assert(!failed)` can never fire. -/
theorem verify_self_order_flag_never_set (t : TreapNode) :
    (orderCheckRun t).failed = false :=
  foldl_orderCheckStep_failed (inorderKeys t) _ rfl

/-- Claim C10: the priority-generator state (`_prng_seed`) advances by
one `prng_next` step exactly when an operation is an `upsert` of a key
not already present; `upsert` of an existing key, `remove`, `find`,
`closest_leq` and both traversals leave it unchanged.  Consequently the
seed after any operation sequence is the seed iterated by the number of
new-key insertions in that sequence. -/
theorem prng_seed_advances_only_on_insert (s : Treap) (ops : List Op) :
    (∀ op, (applyOp s op).prngSeed =
       (if isNewInsert s op then prngNext s.prngSeed else s.prngSeed)) ∧
    (runFrom s ops).prngSeed = prngIterate s.prngSeed (newInserts s ops) :=
  ⟨fun op => applyOp_prngSeed s op, runFrom_prngSeed ops s⟩

end NMTTreap
